import Mathlib

/-!
# spmvaccsim: the memory-system bridge (`src/memorysystem.cpp`)

A shallow embedding of `MemorySystem`, the SystemC module that feeds memory
operations of the processing elements into DRAMSim2 and routes the read
completions back.

Conventions of the embedding.

* Pointers are natural numbers.  `MemoryOperation *`, `Transaction *` and
  `sc_fifo<MemoryOperation *> *` are `OpPtr`, `TransPtr` and `FifoPtr`; the
  objects they point to live in the `ops` and `fifos` components of the state.
* `uint64_t` values are natural numbers reduced modulo `2 ^ 64` wherever the
  source computes with them.  `MEMC_CLOCK_CYCLE` and the field `latency` are
  declared in headers that are not part of the sources at hand; they are taken
  as `uint64_t`, like the difference they are computed from.
* In `getAverageReqRespLatency` the conversions to `double` and the quotient
  are rounded to the nearest binary64 value, ties to even.  The power
  statistics are kept in exact arithmetic: their `double` values are rational
  numbers.  A quotient by a zero count (not a finite number in the source) is
  `none`.
* `exit(EXIT_FAILURE)` is the `error` of `Except`, one constructor of `Halt`
  for each call site.
-/

namespace SpmvAccSim

/-! ## Qt and SystemC containers -/

/-- The entries of a `QMap<K, V>`, as a list of key and value pairs. -/
structure QMap (K V : Type) where
  entries : List (K × V)

namespace QMap

variable {K V : Type} [DecidableEq K]

/-- A default-constructed `QMap`. -/
def empty : QMap K V := ⟨[]⟩

/-- The value stored under `k`, if any (`QMap::find`). -/
def value (m : QMap K V) (k : K) : Option V :=
  (m.entries.find? (fun e => decide (e.1 = k))).map Prod.snd

/-- `QMap::contains` -/
def contains (m : QMap K V) (k : K) : Bool :=
  (m.value k).isSome

/-- `QMap::operator[]` on a key; `dflt` is the default-constructed value that Qt
hands out for a key that is not present. -/
def index (m : QMap K V) (k : K) (dflt : V) : V :=
  (m.value k).getD dflt

/-- `QMap::remove` -/
def remove (m : QMap K V) (k : K) : QMap K V :=
  ⟨m.entries.filter (fun e => !decide (e.1 = k))⟩

/-- `QMap::insert`: if there is already an item with key `k`, its value is
replaced by `v`. -/
def insert (m : QMap K V) (k : K) (v : V) : QMap K V :=
  ⟨(k, v) :: (m.remove k).entries⟩

/-- The keys in the map, one for each entry. -/
def keys (m : QMap K V) : List K :=
  m.entries.map Prod.fst

/-- `QMap::size` -/
def size (m : QMap K V) : Nat :=
  m.entries.length

end QMap

/-- Pointer to a `MemoryOperation`. -/
abbrev OpPtr := Nat

/-- Pointer to a DRAMSim `Transaction`; the bridge uses it as the handle of a
read in flight. -/
abbrev TransPtr := Nat

/-- Pointer to an `sc_fifo<MemoryOperation *>`. -/
abbrev FifoPtr := Nat

/-- An `sc_fifo<MemoryOperation *>`: a bounded first-in first-out queue of
operation pointers. -/
structure ScFifo where
  items : List OpPtr
  size : Nat

namespace ScFifo

/-- `sc_fifo::num_available` -/
def num_available (f : ScFifo) : Nat :=
  f.items.length

/-- `sc_fifo::read`: the oldest element and the queue without it.  On an empty
queue the call blocks, which is `none`. -/
def read (f : ScFifo) : Option (OpPtr × ScFifo) :=
  match f.items with
  | [] => none
  | x :: xs => some (x, { f with items := xs })

/-- `sc_fifo::nb_write`: `none` is the `false` the source gets from a full
queue, otherwise the queue with `op` at its tail. -/
def nb_write (f : ScFifo) (op : OpPtr) : Option ScFifo :=
  if f.items.length < f.size then some { f with items := f.items ++ [op] } else none

end ScFifo

/-! ## Data model -/

/-- The fields of `MemoryOperation` that `memorysystem.cpp` touches. -/
structure MemoryOperation where
  origin : Int
  address : Nat
  isWrite : Bool
  isResponse : Bool
  latency : Nat
deriving DecidableEq

/-- `DRAMSim::TransactionType`, the two values the bridge uses. -/
inductive TransactionType where
  | DATA_READ
  | DATA_WRITE
deriving DecidableEq

/-- What `new Transaction(type, address, NULL)` is constructed from. -/
structure Transaction where
  transactionType : TransactionType
  address : Nat
deriving DecidableEq

/-- The DRAMSim2 instance `m_DRAMSim` together with the C++ heap it allocates
transactions on: an arbitrary state machine over `σ`. -/
structure Oracle (σ : Type) where
  willAcceptTransaction : σ → Bool
  newTransaction : σ → Transaction → TransPtr × σ
  addTransaction : σ → TransPtr → σ

/-- The members of `MemorySystem` and the objects they point to.  The static
members `m_powerSum` and `m_powerSamples` are members of the one bridge the
development follows; `m_latencySum` and `m_latencySamples` are 64-bit
counters. -/
structure MemorySystem where
  m_requests : FifoPtr
  m_responseFIFOs : QMap Int FifoPtr
  m_reqsInFlight : QMap TransPtr OpPtr
  m_latencySamples : Nat
  m_latencySum : Nat
  m_powerSum : Fin 4 → ℚ
  m_powerSamples : Nat
  ops : OpPtr → MemoryOperation
  fifos : FifoPtr → ScFifo

/-- The call sites of `exit(EXIT_FAILURE)` in `readComplete`, by their message,
and a call that does not return. -/
inductive Halt where
  | noMatchingOperation
  | noResponseFIFO
  | responseFIFOFull
  | noReturn
deriving DecidableEq

/-- ProtocolViolation of the specification: a completion for a handle that is
not in flight, or an operation whose origin has no response queue. -/
def Halt.isProtocolViolation : Halt → Bool
  | .noMatchingOperation => true
  | .noResponseFIFO => true
  | _ => false

/-- ResourceExhaustion of the specification: the response queue is full. -/
def Halt.isResourceExhaustion : Halt → Bool
  | .responseFIFOFull => true
  | _ => false

/-- Subtraction of two `uint64_t` values. -/
def sub64 (a b : Nat) : Nat :=
  (a % 2 ^ 64 + 2 ^ 64 - b % 2 ^ 64) % 2 ^ 64

/-! ## Operations -/

/-- The statistics part of the constructor `MemorySystem::MemorySystem`; the
two maps are default-constructed, `m_requests` is whatever the caller binds. -/
def MemorySystem.new (m_requests : FifoPtr) (ops : OpPtr → MemoryOperation)
    (fifos : FifoPtr → ScFifo) : MemorySystem :=
  { m_requests := m_requests
    m_responseFIFOs := QMap.empty
    m_reqsInFlight := QMap.empty
    m_latencySamples := 0
    m_latencySum := 0
    m_powerSum := fun _ => 0
    m_powerSamples := 0
    ops := ops
    fifos := fifos }

/-- `MemorySystem::setRequestFIFO` -/
def setRequestFIFO (st : MemorySystem) (fifo : FifoPtr) : MemorySystem :=
  { st with m_requests := fifo }

/-- `MemorySystem::setResponseFIFO` -/
def setResponseFIFO (st : MemorySystem) (originID : Int) (fifo : FifoPtr) : MemorySystem :=
  { st with m_responseFIFOs := st.m_responseFIFOs.insert originID fifo }

/-- `MemorySystem::readComplete`.  `MEMC_CLOCK_CYCLE` is the constant of
`utilities.h`, in time units, and the product with it is a `uint64_t`;
`timeAdded t` is the field `t->timeAdded` of the transaction object, which
DRAMSim owns. -/
def readComplete (MEMC_CLOCK_CYCLE : Nat) (timeAdded : TransPtr → Nat) (st : MemorySystem)
    (_id : Nat) (address : TransPtr) (clock_cycle : Nat) : Except Halt MemorySystem :=
  let t : TransPtr := address
  if !st.m_reqsInFlight.contains t then
    .error .noMatchingOperation
  else
    let op := st.m_reqsInFlight.index t 0
    let reqs := st.m_reqsInFlight.remove t
    let ops1 := Function.update st.ops op { st.ops op with isResponse := true }
    if !st.m_responseFIFOs.contains (ops1 op).origin then
      .error .noResponseFIFO
    else
      let fifo := st.m_responseFIFOs.index (ops1 op).origin 0
      match (st.fifos fifo).nb_write op with
      | none => .error .responseFIFOFull
      | some q =>
        let fifos1 := Function.update st.fifos fifo q
        let ops2 := Function.update ops1 op
          { ops1 op with
              latency := sub64 clock_cycle (timeAdded t) * MEMC_CLOCK_CYCLE % 2 ^ 64 }
        .ok { st with
                m_reqsInFlight := reqs
                ops := ops2
                fifos := fifos1
                m_latencySum := (st.m_latencySum + sub64 clock_cycle (timeAdded t)) % 2 ^ 64
                m_latencySamples := (st.m_latencySamples + 1) % 2 ^ 64 }

/-- `MemorySystem::writeComplete`: the body is empty. -/
def writeComplete (st : MemorySystem) (_id : Nat) (_address : Nat) (_clock_cycle : Nat) :
    MemorySystem :=
  st

/-- `MemorySystem::powerCallback` -/
def powerCallback (st : MemorySystem) (background burst refresh actpre : ℚ) : MemorySystem :=
  let s0 := Function.update st.m_powerSum 0 (st.m_powerSum 0 + background)
  let s1 := Function.update s0 1 (s0 1 + burst)
  let s2 := Function.update s1 2 (s1 2 + refresh)
  let s3 := Function.update s2 3 (s2 3 + actpre)
  { st with m_powerSum := s3, m_powerSamples := (st.m_powerSamples + 1) % 2 ^ 64 }

/-- The quotient of a power sum by the number of samples, in exact arithmetic. -/
def divCount (sum : ℚ) (count : Nat) : Option ℚ :=
  if count = 0 then none else some (sum / (count : ℚ))

/-- `MemorySystem::getAveragePowerBackground` -/
def getAveragePowerBackground (st : MemorySystem) : Option ℚ :=
  divCount (st.m_powerSum 0) st.m_powerSamples

/-- `MemorySystem::getAveragePowerBurst` -/
def getAveragePowerBurst (st : MemorySystem) : Option ℚ :=
  divCount (st.m_powerSum 1) st.m_powerSamples

/-- `MemorySystem::getAveragePowerRefresh` -/
def getAveragePowerRefresh (st : MemorySystem) : Option ℚ :=
  divCount (st.m_powerSum 2) st.m_powerSamples

/-- `MemorySystem::getAveragePowerActPre` -/
def getAveragePowerActPre (st : MemorySystem) : Option ℚ :=
  divCount (st.m_powerSum 3) st.m_powerSamples

/-- The integer nearest to `x`, the even one of the two when `x` is half way. -/
def roundTiesEven (x : ℚ) : ℤ :=
  if x - (⌊x⌋ : ℚ) < 1 / 2 then ⌊x⌋
  else if 1 / 2 < x - (⌊x⌋ : ℚ) then ⌊x⌋ + 1
  else if ⌊x⌋ % 2 = 0 then ⌊x⌋ else ⌊x⌋ + 1

/-- The binary64 value nearest to `x`, ties to even: 53 significant bits.  The
exponent range is not represented; the values of this development, quotients
of 64-bit counters, are inside it. -/
def roundDouble (x : ℚ) : ℚ :=
  if x = 0 then 0
  else
    (roundTiesEven (|x| / 2 ^ (Int.log 2 |x| - 52)) : ℚ) * 2 ^ (Int.log 2 |x| - 52) *
      (if x < 0 then -1 else 1)

/-- `MemorySystem::getAverageReqRespLatency`: both counters are converted to
`double` and divided. -/
def getAverageReqRespLatency (st : MemorySystem) : Option ℚ :=
  if st.m_latencySamples = 0 then none
  else some (roundDouble
    (roundDouble (st.m_latencySum : ℚ) / roundDouble (st.m_latencySamples : ℚ)))

/-- One transaction handed to DRAMSim by the admission loop: the oracle state
the loop condition was evaluated in, the operation popped, the pointer of the
transaction created for it and what the transaction was constructed from. -/
structure Submission (σ : Type) where
  before : σ
  op : OpPtr
  trans : TransPtr
  obj : Transaction

/-- The body of the inner `while` loop of `MemorySystem::runMemorySystem`. -/
def admitBody {σ : Type} (D : Oracle σ) (st : MemorySystem) (w : σ) :
    Option (MemorySystem × σ × Submission σ) :=
  match (st.fifos st.m_requests).read with
  | none => none
  | some (op, q) =>
    let st1 := { st with fifos := Function.update st.fifos st.m_requests q }
    let obj : Transaction :=
      { transactionType := if (st1.ops op).isWrite then .DATA_WRITE else .DATA_READ
        address := (st1.ops op).address }
    let a := D.newTransaction w obj
    let w2 := D.addTransaction a.2 a.1
    let st2 :=
      if !(st1.ops op).isWrite then
        { st1 with m_reqsInFlight := st1.m_reqsInFlight.insert a.1 op }
      else st1
    some (st2, w2, { before := w, op := op, trans := a.1, obj := obj })

/-- The inner `while` loop of `MemorySystem::runMemorySystem`, at most `fuel`
evaluations of its condition; `none` when the loop has not left by then. -/
def admitLoop {σ : Type} (D : Oracle σ) :
    Nat → MemorySystem → σ → Option (MemorySystem × σ × List (Submission σ))
  | 0, _, _ => none
  | fuel + 1, st, w =>
    if 0 < (st.fifos st.m_requests).num_available && D.willAcceptTransaction w then
      match admitBody D st w with
      | none => none
      | some (st1, w1, s) =>
        match admitLoop D fuel st1 w1 with
        | none => none
        | some (st2, w2, log) => some (st2, w2, s :: log)
    else
      some (st, w, [])

/-- One admission batch (`admitPending` of the specification): the inner loop
with one evaluation of the condition for each queued operation and one more. -/
def admitPending {σ : Type} (D : Oracle σ) (st : MemorySystem) (w : σ) :
    Option (MemorySystem × σ × List (Submission σ)) :=
  admitLoop D ((st.fifos st.m_requests).num_available + 1) st w

/-! ## Executions -/

/-- What can happen to a bridge: the calls of its public interface, the
callbacks DRAMSim makes, an admission batch for some oracle state, and the
processing elements acting on operation objects and queues. -/
inductive Event (σ : Type) where
  | setRequestFIFO (fifo : FifoPtr)
  | setResponseFIFO (originID : Int) (fifo : FifoPtr)
  | admission (w : σ)
  | readComplete (id : Nat) (address : TransPtr) (clock_cycle : Nat) (timeAdded : TransPtr → Nat)
  | writeComplete (id : Nat) (address : Nat) (clock_cycle : Nat)
  | powerCallback (background burst refresh actpre : ℚ)
  | environment (ops : OpPtr → MemoryOperation) (fifos : FifoPtr → ScFifo)

/-- The transaction pointers registered in `m_reqsInFlight` by a batch. -/
def registeredHandles {σ : Type} (ops : OpPtr → MemoryOperation) (log : List (Submission σ)) :
    List TransPtr :=
  (log.filter (fun s => !(ops s.op).isWrite)).map (fun s => s.trans)

/-- One event; the second component lists the handles registered by it. -/
def step {σ : Type} (D : Oracle σ) (MEMC_CLOCK_CYCLE : Nat) (st : MemorySystem) :
    Event σ → Except Halt (MemorySystem × List TransPtr)
  | .setRequestFIFO fifo => .ok (setRequestFIFO st fifo, [])
  | .setResponseFIFO originID fifo => .ok (setResponseFIFO st originID fifo, [])
  | .admission w =>
    match admitPending D st w with
    | none => .error .noReturn
    | some (st1, _, log) => .ok (st1, registeredHandles st.ops log)
  | .readComplete id address clock_cycle timeAdded =>
    match readComplete MEMC_CLOCK_CYCLE timeAdded st id address clock_cycle with
    | .error h => .error h
    | .ok st1 => .ok (st1, [])
  | .writeComplete id address clock_cycle => .ok (writeComplete st id address clock_cycle, [])
  | .powerCallback background burst refresh actpre =>
    .ok (powerCallback st background burst refresh actpre, [])
  | .environment ops fifos => .ok ({ st with ops := ops, fifos := fifos }, [])

/-- A sequence of events, until the first that halts the process. -/
def run {σ : Type} (D : Oracle σ) (MEMC_CLOCK_CYCLE : Nat) :
    MemorySystem → List (Event σ) → Except Halt (MemorySystem × List TransPtr)
  | st, [] => .ok (st, [])
  | st, e :: es =>
    match step D MEMC_CLOCK_CYCLE st e with
    | .error h => .error h
    | .ok (st1, hs) =>
      match run D MEMC_CLOCK_CYCLE st1 es with
      | .error h => .error h
      | .ok (st2, hs2) => .ok (st2, hs ++ hs2)

/-! ## Vocabulary for the statements -/

/-- The oracle state after the submission `s`: the transaction was allocated
and then added in the state the loop condition was evaluated in. -/
def Submission.after {σ : Type} (D : Oracle σ) (s : Submission σ) : σ :=
  D.addTransaction (D.newTransaction s.before s.obj).2 (D.newTransaction s.before s.obj).1

/-- The submissions of `log` happen one after the other from oracle state `w`
to oracle state `w'`, nothing else touching the oracle in between. -/
def oracleTrace {σ : Type} (D : Oracle σ) : σ → List (Submission σ) → σ → Prop
  | w, [], w' => w' = w
  | w, s :: l, w' => s.before = w ∧ oracleTrace D (s.after D) l w'

/-- The registry `m` after registering the reads of `log`, oldest first. -/
def registerAll {σ : Type} (ops : OpPtr → MemoryOperation) (m : QMap TransPtr OpPtr)
    (log : List (Submission σ)) : QMap TransPtr OpPtr :=
  log.foldl (fun acc s => if (ops s.op).isWrite then acc else acc.insert s.trans s.op) m

/-- The transaction the source constructs for the operation `op`. -/
def transactionFor (op : MemoryOperation) : Transaction :=
  { transactionType := if op.isWrite then .DATA_WRITE else .DATA_READ
    address := op.address }

/-- What one admission batch from `(st, w)` to `(st', w')` with submissions
`log` does. -/
structure AdmitPost {σ : Type} (D : Oracle σ) (st : MemorySystem) (w : σ)
    (st' : MemorySystem) (w' : σ) (log : List (Submission σ)) : Prop where
  queue : (st.fifos st.m_requests).items =
    log.map (fun s => s.op) ++ (st'.fifos st.m_requests).items
  size : (st'.fifos st.m_requests).size = (st.fifos st.m_requests).size
  frame_fifos : ∀ g, g ≠ st.m_requests → st'.fifos g = st.fifos g
  requests : st'.m_requests = st.m_requests
  ops : st'.ops = st.ops
  responseFIFOs : st'.m_responseFIFOs = st.m_responseFIFOs
  latencySum : st'.m_latencySum = st.m_latencySum
  latencySamples : st'.m_latencySamples = st.m_latencySamples
  powerSum : st'.m_powerSum = st.m_powerSum
  powerSamples : st'.m_powerSamples = st.m_powerSamples
  reqs : st'.m_reqsInFlight = registerAll st.ops st.m_reqsInFlight log
  objs : ∀ s ∈ log, s.obj = transactionFor (st.ops s.op) ∧
    D.willAcceptTransaction s.before = true ∧ s.trans = (D.newTransaction s.before s.obj).1
  chain : oracleTrace D w log w'
  exit : (st'.fifos st.m_requests).items = [] ∨ D.willAcceptTransaction w' = false

/-- The cycle counts `clock_cycle - t->timeAdded` of the read completions among
the events, oldest first. -/
def cycleSamples {σ : Type} : List (Event σ) → List Nat
  | [] => []
  | .readComplete _ address clock_cycle timeAdded :: es =>
    sub64 clock_cycle (timeAdded address) :: cycleSamples es
  | _ :: es => cycleSamples es

/-- The values passed to `powerCallback` for component `i` (0 background,
1 burst, 2 refresh, 3 activate and precharge) among the events, oldest first. -/
def powerValues {σ : Type} (i : Fin 4) : List (Event σ) → List ℚ
  | [] => []
  | .powerCallback background burst refresh actpre :: es =>
    ![background, burst, refresh, actpre] i :: powerValues i es
  | _ :: es => powerValues i es

/-- The values found in the `latency` field of the completed operations, each
read in the state that its `readComplete` returns in, oldest first. -/
def storedLatencies {σ : Type} (D : Oracle σ) (MEMC_CLOCK_CYCLE : Nat) :
    MemorySystem → List (Event σ) → List Nat
  | _, [] => []
  | st, e :: es =>
    match step D MEMC_CLOCK_CYCLE st e with
    | .error _ => []
    | .ok (st1, _) =>
      match e with
      | .readComplete _ address _ _ =>
        (st1.ops (st.m_reqsInFlight.index address 0)).latency ::
          storedLatencies D MEMC_CLOCK_CYCLE st1 es
      | _ => storedLatencies D MEMC_CLOCK_CYCLE st1 es

/-- The arithmetic mean of a list of rationals. -/
def mean (l : List ℚ) : ℚ :=
  l.sum / (l.length : ℚ)

/-- The effect on the statistics members of events whose read completions have
the cycle counts `ds` and whose power samples have the values `ps`. -/
structure StatsStep (st st1 : MemorySystem) (ds : List Nat) (ps : Fin 4 → List ℚ) : Prop where
  latencySum : st1.m_latencySum % 2 ^ 64 = (st.m_latencySum + ds.sum) % 2 ^ 64
  latencySamples : st1.m_latencySamples % 2 ^ 64 = (st.m_latencySamples + ds.length) % 2 ^ 64
  latencySum_lt : st.m_latencySum < 2 ^ 64 → st1.m_latencySum < 2 ^ 64
  latencySamples_lt : st.m_latencySamples < 2 ^ 64 → st1.m_latencySamples < 2 ^ 64
  powerSum : ∀ i, st1.m_powerSum i = st.m_powerSum i + (ps i).sum
  powerSamples : st1.m_powerSamples % 2 ^ 64 = (st.m_powerSamples + (ps 0).length) % 2 ^ 64
  powerSamples_lt : st.m_powerSamples < 2 ^ 64 → st1.m_powerSamples < 2 ^ 64

/-! ## Concrete configurations -/

/-- Two reads of origin 0: operation A at pointer 10 for address 0x100 and
operation B at pointer 11 for address 0x200; a write of origin 1 at pointer 12. -/
def exampleOps : OpPtr → MemoryOperation := fun p =>
  if p = 10 then { origin := 0, address := 0x100, isWrite := false, isResponse := false, latency := 0 }
  else if p = 11 then
    { origin := 0, address := 0x200, isWrite := false, isResponse := false, latency := 0 }
  else { origin := 1, address := 0x300, isWrite := true, isResponse := false, latency := 0 }

/-- Queue 0 holds A then B and has room for 16; every other queue is empty and
has room for one operation. -/
def exampleFifos : FifoPtr → ScFifo := fun f =>
  if f = 0 then { items := [10, 11], size := 16 } else { items := [], size := 1 }

/-- An oracle that always has capacity; its state counts the transactions
added, and the `n`-th transaction is allocated at pointer `100 + n`. -/
def exampleOracle : Oracle Nat :=
  { willAcceptTransaction := fun _ => true
    newTransaction := fun n _ => (100 + n, n)
    addTransaction := fun n _ => n + 1 }

/-- An oracle with capacity whose allocator hands out pointer 100 every time. -/
def reusingOracle : Oracle Unit :=
  { willAcceptTransaction := fun _ => true
    newTransaction := fun _ _ => (100, ())
    addTransaction := fun _ _ => () }

/-- A fresh bridge bound to queue 0 for requests and queue 1 for the responses
of origin 0, after one admission batch. -/
def exampleSetup : List (Event Nat) :=
  [.setRequestFIFO 0, .setResponseFIFO 0 1, .admission 0]

/-- The setup followed by the completion, at cycle 10, of the read A, whose
transaction was added at cycle 2. -/
def exampleCompletion : List (Event Nat) :=
  exampleSetup ++ [.readComplete 0 100 10 (fun _ => 2)]

/-- A setup in which origin 0 and origin 1 are bound to the same queue 1. -/
def exampleSharedSetup : List (Event Nat) :=
  [.setRequestFIFO 0, .setResponseFIFO 0 1, .setResponseFIFO 1 1, .admission 0]

/-- A setup in which queue 0 is both the request queue and the response queue
of origin 0. -/
def exampleLoopSetup : List (Event Nat) :=
  [.setRequestFIFO 0, .setResponseFIFO 0 0, .admission 0]

/-- Two power samples around an admission batch. -/
def examplePower : List (Event Nat) :=
  [.powerCallback 1 2 3 4, .admission 0, .powerCallback 3 6 9 12]

/-- A bridge with the read A in flight under handle 100 and queue 1 registered
for origin 0; queue 0, the request queue, holds B. -/
def exampleInFlight : MemorySystem :=
  { m_requests := 0
    m_responseFIFOs := ⟨[(0, 1)]⟩
    m_reqsInFlight := ⟨[(100, 10)]⟩
    m_latencySamples := 0
    m_latencySum := 0
    m_powerSum := fun _ => 0
    m_powerSamples := 0
    ops := exampleOps
    fifos := fun f => if f = 0 then { items := [11], size := 16 } else { items := [], size := 1 } }

/-! ## Lemmas on the containers -/

namespace QMap

variable {K V : Type} [DecidableEq K]

theorem contains_eq_false_iff (m : QMap K V) (k : K) :
    m.contains k = false ↔ m.value k = none := by
  unfold contains
  cases m.value k <;> simp

theorem contains_eq_true_iff (m : QMap K V) (k : K) :
    m.contains k = true ↔ ∃ v, m.value k = some v := by
  unfold contains
  cases m.value k <;> simp

theorem index_of_value {m : QMap K V} {k : K} {v : V} (h : m.value k = some v) (d : V) :
    m.index k d = v := by
  simp [index, h]

theorem value_empty (k : K) : (empty : QMap K V).value k = none := rfl

theorem value_remove_self (m : QMap K V) (k : K) : (m.remove k).value k = none := by
  simp only [value, remove, Option.map_eq_none', List.find?_eq_none]
  intro e he
  simp only [List.mem_filter] at he
  simpa using he.2

theorem value_remove_of_ne (m : QMap K V) {k k' : K} (h : k' ≠ k) :
    (m.remove k).value k' = m.value k' := by
  obtain ⟨l⟩ := m
  simp only [value, remove]
  congr 1
  induction l with
  | nil => rfl
  | cons e l ih =>
    by_cases h1 : e.1 = k
    · have h2 : ¬ e.1 = k' := fun h3 => h (h3.symm.trans h1)
      rw [List.filter_cons_of_neg (by simpa using h1), List.find?_cons_of_neg _ (by simpa using h2)]
      exact ih
    · rw [List.filter_cons_of_pos (by simpa using h1)]
      by_cases h2 : e.1 = k'
      · rw [List.find?_cons_of_pos _ (by simpa using h2), List.find?_cons_of_pos _ (by simpa using h2)]
      · rw [List.find?_cons_of_neg _ (by simpa using h2), List.find?_cons_of_neg _ (by simpa using h2)]
        exact ih

theorem value_insert_self (m : QMap K V) (k : K) (v : V) : (m.insert k v).value k = some v := by
  simp [value, insert]

theorem value_insert_of_ne (m : QMap K V) {k k' : K} (v : V) (h : k' ≠ k) :
    (m.insert k v).value k' = m.value k' := by
  have h1 : (m.insert k v).value k' = (m.remove k).value k' := by
    simp [value, insert, List.find?_cons, Ne.symm h]
  rw [h1, value_remove_of_ne m h]

theorem mem_keys_iff (m : QMap K V) (k : K) : k ∈ m.keys ↔ m.contains k = true := by
  obtain ⟨l⟩ := m
  simp only [keys, contains, value, Option.isSome_map', List.find?_isSome, List.mem_map]
  constructor
  · rintro ⟨e, he, rfl⟩
    exact ⟨e, he, by simp⟩
  · rintro ⟨e, he, h⟩
    exact ⟨e, he, by simpa using h⟩

theorem keys_remove (m : QMap K V) (k : K) : (m.remove k).keys = m.keys.filter (fun x => !decide (x = k)) := by
  obtain ⟨l⟩ := m
  simp only [keys, remove]
  induction l with
  | nil => rfl
  | cons e l ih =>
    by_cases h1 : e.1 = k <;> simp [List.filter_cons, h1, ih]

theorem nodup_keys_remove {m : QMap K V} (h : m.keys.Nodup) (k : K) : (m.remove k).keys.Nodup := by
  rw [keys_remove]
  exact h.filter _

theorem nodup_keys_insert {m : QMap K V} (h : m.keys.Nodup) (k : K) (v : V) :
    (m.insert k v).keys.Nodup := by
  have h1 : (m.insert k v).keys = k :: (m.remove k).keys := rfl
  rw [h1, List.nodup_cons]
  refine ⟨?_, nodup_keys_remove h k⟩
  rw [mem_keys_iff, Bool.not_eq_true, contains_eq_false_iff]
  exact value_remove_self m k

end QMap

/-! ## The four ways through `readComplete` -/

section ReadComplete

variable (M : Nat) (ta : TransPtr → Nat) (st : MemorySystem) (id : Nat) (t : TransPtr) (c : Nat)

theorem readComplete_absent (h : st.m_reqsInFlight.value t = none) :
    readComplete M ta st id t c = .error .noMatchingOperation := by
  have h1 : st.m_reqsInFlight.contains t = false := (QMap.contains_eq_false_iff _ _).2 h
  simp [readComplete, h1]

theorem readComplete_noFIFO {op : OpPtr} (h : st.m_reqsInFlight.value t = some op)
    (h2 : st.m_responseFIFOs.value (st.ops op).origin = none) :
    readComplete M ta st id t c = .error .noResponseFIFO := by
  have h1 : st.m_reqsInFlight.contains t = true := (QMap.contains_eq_true_iff _ _).2 ⟨op, h⟩
  have h3 : st.m_responseFIFOs.contains (st.ops op).origin = false :=
    (QMap.contains_eq_false_iff _ _).2 h2
  simp [readComplete, h1, QMap.index_of_value h, h3]

theorem readComplete_full {op : OpPtr} {f : FifoPtr} (h : st.m_reqsInFlight.value t = some op)
    (h2 : st.m_responseFIFOs.value (st.ops op).origin = some f)
    (h4 : (st.fifos f).nb_write op = none) :
    readComplete M ta st id t c = .error .responseFIFOFull := by
  have h1 : st.m_reqsInFlight.contains t = true := (QMap.contains_eq_true_iff _ _).2 ⟨op, h⟩
  have h3 : st.m_responseFIFOs.contains (st.ops op).origin = true :=
    (QMap.contains_eq_true_iff _ _).2 ⟨f, h2⟩
  simp [readComplete, h1, QMap.index_of_value h, h3, QMap.index_of_value h2, h4]

theorem readComplete_push {op : OpPtr} {f : FifoPtr} {q : ScFifo}
    (h : st.m_reqsInFlight.value t = some op)
    (h2 : st.m_responseFIFOs.value (st.ops op).origin = some f)
    (h4 : (st.fifos f).nb_write op = some q) :
    readComplete M ta st id t c = .ok
      { st with
          m_reqsInFlight := st.m_reqsInFlight.remove t
          ops := Function.update st.ops op
            { st.ops op with isResponse := true, latency := sub64 c (ta t) * M % 2 ^ 64 }
          fifos := Function.update st.fifos f q
          m_latencySum := (st.m_latencySum + sub64 c (ta t)) % 2 ^ 64
          m_latencySamples := (st.m_latencySamples + 1) % 2 ^ 64 } := by
  have h1 : st.m_reqsInFlight.contains t = true := (QMap.contains_eq_true_iff _ _).2 ⟨op, h⟩
  have h3 : st.m_responseFIFOs.contains (st.ops op).origin = true :=
    (QMap.contains_eq_true_iff _ _).2 ⟨f, h2⟩
  simp [readComplete, h1, QMap.index_of_value h, h3, QMap.index_of_value h2, h4]

/-- Every successful call went through the last branch. -/
theorem readComplete_ok_inv {st' : MemorySystem} (h : readComplete M ta st id t c = .ok st') :
    ∃ op f q, st.m_reqsInFlight.value t = some op ∧
      st.m_responseFIFOs.value (st.ops op).origin = some f ∧
      (st.fifos f).nb_write op = some q ∧
      st' = { st with
          m_reqsInFlight := st.m_reqsInFlight.remove t
          ops := Function.update st.ops op
            { st.ops op with isResponse := true, latency := sub64 c (ta t) * M % 2 ^ 64 }
          fifos := Function.update st.fifos f q
          m_latencySum := (st.m_latencySum + sub64 c (ta t)) % 2 ^ 64
          m_latencySamples := (st.m_latencySamples + 1) % 2 ^ 64 } := by
  cases h1 : st.m_reqsInFlight.value t with
  | none => rw [readComplete_absent M ta st id t c h1] at h; cases h
  | some op =>
    cases h2 : st.m_responseFIFOs.value (st.ops op).origin with
    | none => rw [readComplete_noFIFO M ta st id t c h1 h2] at h; cases h
    | some f =>
      cases h4 : (st.fifos f).nb_write op with
      | none => rw [readComplete_full M ta st id t c h1 h2 h4] at h; cases h
      | some q =>
        rw [readComplete_push M ta st id t c h1 h2 h4] at h
        exact ⟨op, f, q, rfl, h2, h4, (Except.ok.inj h).symm⟩

end ReadComplete

/-! ## The admission loop -/

section Admit

variable {σ : Type} (D : Oracle σ)

theorem admitLoop_stop (fuel : Nat) (st : MemorySystem) (w : σ)
    (h : (st.fifos st.m_requests).items = [] ∨ D.willAcceptTransaction w = false) :
    admitLoop D (fuel + 1) st w = some (st, w, []) := by
  rcases h with h | h <;> simp [admitLoop, ScFifo.num_available, h]

theorem admitBody_cons (st : MemorySystem) (w : σ) {op : OpPtr} {rest : List OpPtr}
    (h : (st.fifos st.m_requests).items = op :: rest) :
    admitBody D st w = some
      ((if !(st.ops op).isWrite then
          { st with
              fifos := Function.update st.fifos st.m_requests
                { st.fifos st.m_requests with items := rest }
              m_reqsInFlight := st.m_reqsInFlight.insert
                (D.newTransaction w (transactionFor (st.ops op))).1 op }
        else
          { st with
              fifos := Function.update st.fifos st.m_requests
                { st.fifos st.m_requests with items := rest } }),
       D.addTransaction (D.newTransaction w (transactionFor (st.ops op))).2
         (D.newTransaction w (transactionFor (st.ops op))).1,
       { before := w, op := op, trans := (D.newTransaction w (transactionFor (st.ops op))).1,
         obj := transactionFor (st.ops op) }) := by
  simp only [admitBody, ScFifo.read, h, transactionFor]

theorem admitLoop_go (fuel : Nat) (st : MemorySystem) (w : σ) {op : OpPtr} {rest : List OpPtr}
    (h : (st.fifos st.m_requests).items = op :: rest)
    (hw : D.willAcceptTransaction w = true) {st1 : MemorySystem} {w1 : σ} {s : Submission σ}
    (hb : admitBody D st w = some (st1, w1, s)) :
    admitLoop D (fuel + 1) st w =
      (admitLoop D fuel st1 w1).map (fun r => (r.1, r.2.1, s :: r.2.2)) := by
  simp only [admitLoop, ScFifo.num_available, h, hw, hb]
  cases admitLoop D fuel st1 w1 <;> simp

theorem admitLoop_spec : ∀ (fuel : Nat) (st : MemorySystem) (w : σ),
    (st.fifos st.m_requests).items.length < fuel →
    ∃ st' w' log, admitLoop D fuel st w = some (st', w', log) ∧ AdmitPost D st w st' w' log := by
  intro fuel
  induction fuel with
  | zero => intro st w h; exact absurd h (Nat.not_lt_zero _)
  | succ fuel ih =>
    intro st w hlen
    cases hitems : (st.fifos st.m_requests).items with
    | nil =>
      refine ⟨st, w, [], admitLoop_stop D fuel st w (Or.inl hitems), ?_⟩
      exact ⟨by simp [hitems], rfl, fun _ _ => rfl, rfl, rfl, rfl, rfl, rfl, rfl, rfl, rfl,
        by simp, rfl, Or.inl hitems⟩
    | cons op rest =>
      cases hw : D.willAcceptTransaction w with
      | false =>
        refine ⟨st, w, [], admitLoop_stop D fuel st w (Or.inr hw), ?_⟩
        exact ⟨by simp, rfl, fun _ _ => rfl, rfl, rfl, rfl, rfl, rfl, rfl, rfl, rfl,
          by simp, rfl, Or.inr hw⟩
      | true =>
        have hb := admitBody_cons D st w hitems
        generalize hst1 : (if !(st.ops op).isWrite then
          ({ st with
              fifos := Function.update st.fifos st.m_requests
                { st.fifos st.m_requests with items := rest }
              m_reqsInFlight := st.m_reqsInFlight.insert
                (D.newTransaction w (transactionFor (st.ops op))).1 op } : MemorySystem)
        else
          { st with
              fifos := Function.update st.fifos st.m_requests
                { st.fifos st.m_requests with items := rest } }) = st1 at hb
        have e_req : st1.m_requests = st.m_requests := by
          rw [← hst1]; cases (st.ops op).isWrite <;> rfl
        have e_ops : st1.ops = st.ops := by
          rw [← hst1]; cases (st.ops op).isWrite <;> rfl
        have e_fifos : st1.fifos = Function.update st.fifos st.m_requests
            { st.fifos st.m_requests with items := rest } := by
          rw [← hst1]; cases (st.ops op).isWrite <;> rfl
        have e_resp : st1.m_responseFIFOs = st.m_responseFIFOs := by
          rw [← hst1]; cases (st.ops op).isWrite <;> rfl
        have e_ls : st1.m_latencySum = st.m_latencySum := by
          rw [← hst1]; cases (st.ops op).isWrite <;> rfl
        have e_ln : st1.m_latencySamples = st.m_latencySamples := by
          rw [← hst1]; cases (st.ops op).isWrite <;> rfl
        have e_ps : st1.m_powerSum = st.m_powerSum := by
          rw [← hst1]; cases (st.ops op).isWrite <;> rfl
        have e_pn : st1.m_powerSamples = st.m_powerSamples := by
          rw [← hst1]; cases (st.ops op).isWrite <;> rfl
        have e_reqs : st1.m_reqsInFlight =
            (if (st.ops op).isWrite then st.m_reqsInFlight
             else st.m_reqsInFlight.insert
               (D.newTransaction w (transactionFor (st.ops op))).1 op) := by
          rw [← hst1]; cases (st.ops op).isWrite <;> rfl
        have e_q : (st1.fifos st1.m_requests).items = rest := by
          rw [e_req, e_fifos]; simp
        have hlen1 : (st1.fifos st1.m_requests).items.length < fuel := by
          rw [e_q]; rw [hitems] at hlen; simpa using hlen
        obtain ⟨st2, w2, log, hrun, post⟩ := ih st1
          (D.addTransaction (D.newTransaction w (transactionFor (st.ops op))).2
            (D.newTransaction w (transactionFor (st.ops op))).1) hlen1
        refine ⟨st2, w2,
          { before := w, op := op, trans := (D.newTransaction w (transactionFor (st.ops op))).1,
            obj := transactionFor (st.ops op) } :: log, ?_, ?_⟩
        · rw [admitLoop_go D fuel st w hitems hw hb, hrun]; rfl
        · have hq := post.queue
          rw [e_q, e_req] at hq
          have hsz := post.size
          rw [e_req, e_fifos] at hsz
          have hex := post.exit
          rw [e_req] at hex
          refine ⟨by rw [hitems, hq]; rfl, ?_, ?_, post.requests.trans e_req, post.ops.trans e_ops,
            post.responseFIFOs.trans e_resp, post.latencySum.trans e_ls,
            post.latencySamples.trans e_ln, post.powerSum.trans e_ps,
            post.powerSamples.trans e_pn, ?_, ?_, ?_, hex⟩
          · simpa using hsz
          · intro g hg
            rw [post.frame_fifos g (by rw [e_req]; exact hg), e_fifos, Function.update_noteq hg]
          · rw [post.reqs, e_ops, e_reqs]
            simp only [registerAll, List.foldl_cons]
          · intro s hs
            rcases List.mem_cons.1 hs with rfl | hs
            · exact ⟨rfl, hw, rfl⟩
            · have := post.objs s hs
              rwa [e_ops] at this
          · exact ⟨rfl, post.chain⟩

theorem admitLoop_fuel_succ : ∀ (fuel : Nat) (st : MemorySystem) (w : σ)
    (r : MemorySystem × σ × List (Submission σ)),
    admitLoop D fuel st w = some r → admitLoop D (fuel + 1) st w = some r := by
  intro fuel
  induction fuel with
  | zero => intro st w r h; simp [admitLoop] at h
  | succ fuel ih =>
    intro st w r h
    cases hitems : (st.fifos st.m_requests).items with
    | nil =>
      rw [admitLoop_stop D fuel st w (Or.inl hitems)] at h
      rw [admitLoop_stop D (fuel + 1) st w (Or.inl hitems)]
      exact h
    | cons op rest =>
      cases hw : D.willAcceptTransaction w with
      | false =>
        rw [admitLoop_stop D fuel st w (Or.inr hw)] at h
        rw [admitLoop_stop D (fuel + 1) st w (Or.inr hw)]
        exact h
      | true =>
        have hb := admitBody_cons D st w hitems
        rw [admitLoop_go D fuel st w hitems hw hb] at h
        rw [admitLoop_go D (fuel + 1) st w hitems hw hb]
        obtain ⟨r1, hr1, hf⟩ := Option.map_eq_some'.1 h
        rw [ih _ _ r1 hr1]
        simpa using hf

theorem admitLoop_fuel_le {fuel fuel' : Nat} (hle : fuel ≤ fuel') (st : MemorySystem) (w : σ)
    (r : MemorySystem × σ × List (Submission σ)) (h : admitLoop D fuel st w = some r) :
    admitLoop D fuel' st w = some r := by
  induction hle with
  | refl => exact h
  | step _ ih => exact admitLoop_fuel_succ D _ st w r ih

theorem admitPending_spec (st : MemorySystem) (w : σ) :
    ∃ st' w' log, admitPending D st w = some (st', w', log) ∧ AdmitPost D st w st' w' log :=
  admitLoop_spec D _ st w (Nat.lt_succ_self _)

end Admit

/-! ## Registry lemmas -/

theorem QMap.contains_insert {K V : Type} [DecidableEq K] (m : QMap K V) (k : K) (v : V) (h : K) :
    (m.insert k v).contains h = true ↔ h = k ∨ m.contains h = true := by
  by_cases hk : h = k
  · subst hk
    simp [QMap.contains, QMap.value_insert_self]
  · simp [QMap.contains, QMap.value_insert_of_ne m v hk, hk]

theorem QMap.contains_remove {K V : Type} [DecidableEq K] (m : QMap K V) (k : K) (h : K) :
    (m.remove k).contains h = true ↔ h ≠ k ∧ m.contains h = true := by
  by_cases hk : h = k
  · subst hk
    simp [QMap.contains, QMap.value_remove_self]
  · simp [QMap.contains, QMap.value_remove_of_ne m hk, hk]

section Registry

variable {σ : Type}

theorem registerAll_cons (ops : OpPtr → MemoryOperation) (m : QMap TransPtr OpPtr)
    (s : Submission σ) (log : List (Submission σ)) :
    registerAll ops m (s :: log) =
      registerAll ops (if (ops s.op).isWrite then m else m.insert s.trans s.op) log := rfl

theorem registeredHandles_cons (ops : OpPtr → MemoryOperation) (s : Submission σ)
    (log : List (Submission σ)) :
    registeredHandles ops (s :: log) =
      if (ops s.op).isWrite then registeredHandles ops log
      else s.trans :: registeredHandles ops log := by
  cases h : (ops s.op).isWrite <;> simp [registeredHandles, List.filter_cons, h]

theorem nodup_keys_registerAll (ops : OpPtr → MemoryOperation) :
    ∀ (log : List (Submission σ)) (m : QMap TransPtr OpPtr),
      m.keys.Nodup → (registerAll ops m log).keys.Nodup := by
  intro log
  induction log with
  | nil => intro m h; exact h
  | cons s log ih =>
    intro m h
    rw [registerAll_cons]
    apply ih
    split
    · exact h
    · exact QMap.nodup_keys_insert h _ _

theorem contains_registerAll (ops : OpPtr → MemoryOperation) :
    ∀ (log : List (Submission σ)) (m : QMap TransPtr OpPtr) (h : TransPtr),
      (registerAll ops m log).contains h = true →
        m.contains h = true ∨ h ∈ registeredHandles ops log := by
  intro log
  induction log with
  | nil => intro m h hc; exact Or.inl hc
  | cons s log ih =>
    intro m h hc
    rw [registerAll_cons] at hc
    rw [registeredHandles_cons]
    cases hw : (ops s.op).isWrite with
    | true =>
      rw [hw] at hc
      simpa using ih _ h hc
    | false =>
      rw [hw] at hc
      rcases ih _ h hc with h1 | h1
      · rcases (QMap.contains_insert m _ _ h).1 h1 with h2 | h2
        · exact Or.inr (by simp [h2])
        · exact Or.inl h2
      · exact Or.inr (by simp [h1])

end Registry

/-! ## Invariants of executions -/

section Runs

variable {σ : Type} (D : Oracle σ) (M : Nat)

theorem step_admission_inv {st st1 : MemorySystem} {w : σ} {hs : List TransPtr}
    (h : step D M st (.admission w) = .ok (st1, hs)) :
    ∃ w' log, admitPending D st w = some (st1, w', log) ∧ AdmitPost D st w st1 w' log ∧
      hs = registeredHandles st.ops log := by
  obtain ⟨st', w', log, hrun, post⟩ := admitPending_spec D st w
  simp only [step, hrun] at h
  injection h with h
  injection h with h1 h2
  subst h1
  exact ⟨w', log, hrun, post, h2.symm⟩

theorem step_readComplete_inv {st st1 : MemorySystem} {id : Nat} {t : TransPtr} {c : Nat}
    {ta : TransPtr → Nat} {hs : List TransPtr}
    (h : step D M st (.readComplete id t c ta) = .ok (st1, hs)) :
    readComplete M ta st id t c = .ok st1 ∧ hs = [] := by
  simp only [step] at h
  cases hr : readComplete M ta st id t c with
  | error e => rw [hr] at h; cases h
  | ok st' =>
    rw [hr] at h
    injection h with h
    injection h with h1 h2
    exact ⟨by rw [h1], h2.symm⟩

/-- A step keeps the keys of the registry distinct and adds only the handles
it reports. -/
theorem step_reqs {st st1 : MemorySystem} {e : Event σ} {hs : List TransPtr}
    (h : step D M st e = .ok (st1, hs)) :
    (st.m_reqsInFlight.keys.Nodup → st1.m_reqsInFlight.keys.Nodup) ∧
    (∀ k, st1.m_reqsInFlight.contains k = true →
      st.m_reqsInFlight.contains k = true ∨ k ∈ hs) := by
  cases e with
  | admission w =>
    obtain ⟨w', log, _, post, rfl⟩ := step_admission_inv D M h
    rw [post.reqs]
    exact ⟨nodup_keys_registerAll _ _ _, contains_registerAll _ _ _⟩
  | readComplete id t c ta =>
    obtain ⟨hr, rfl⟩ := step_readComplete_inv D M h
    obtain ⟨op, f, q, _, _, _, rfl⟩ := readComplete_ok_inv M ta st id t c hr
    refine ⟨fun hn => QMap.nodup_keys_remove hn t, fun k hk => Or.inl ?_⟩
    exact ((QMap.contains_remove _ _ _).1 hk).2
  | setRequestFIFO _ | setResponseFIFO _ _ | writeComplete _ _ _ | powerCallback _ _ _ _
  | environment _ _ =>
    simp only [step] at h
    injection h with h
    injection h with h1 h2
    subst h1
    exact ⟨fun hn => hn, fun k hk => Or.inl hk⟩

theorem run_nil_inv {st st1 : MemorySystem} {hs : List TransPtr}
    (h : run D M st [] = .ok (st1, hs)) : st1 = st ∧ hs = [] := by
  simp only [run] at h
  injection h with h
  injection h with h1 h2
  exact ⟨h1.symm, h2.symm⟩

theorem run_cons_inv {st st2 : MemorySystem} {e : Event σ} {es : List (Event σ)}
    {hs : List TransPtr} (h : run D M st (e :: es) = .ok (st2, hs)) :
    ∃ st1 hs1 hs2, step D M st e = .ok (st1, hs1) ∧ run D M st1 es = .ok (st2, hs2) ∧
      hs = hs1 ++ hs2 := by
  cases h1 : step D M st e with
  | error x => simp only [run, h1] at h; cases h
  | ok r1 =>
    obtain ⟨st1, hs1⟩ := r1
    cases h2 : run D M st1 es with
    | error x => simp only [run, h1, h2] at h; cases h
    | ok r2 =>
      obtain ⟨st2', hs2⟩ := r2
      simp only [run, h1, h2] at h
      injection h with h
      injection h with e1 e2
      subst e1
      exact ⟨st1, hs1, hs2, rfl, h2, e2.symm⟩

theorem run_reqs : ∀ (es : List (Event σ)) (st st1 : MemorySystem) (hs : List TransPtr),
    run D M st es = .ok (st1, hs) →
    (st.m_reqsInFlight.keys.Nodup → st1.m_reqsInFlight.keys.Nodup) ∧
    (∀ k, st1.m_reqsInFlight.contains k = true →
      st.m_reqsInFlight.contains k = true ∨ k ∈ hs) := by
  intro es
  induction es with
  | nil =>
    intro st st1 hs h
    obtain ⟨rfl, rfl⟩ := run_nil_inv D M h
    exact ⟨fun hn => hn, fun k hk => Or.inl hk⟩
  | cons e es ih =>
    intro st st2 hs h
    obtain ⟨st1, hs1, hs2, h1, h2, rfl⟩ := run_cons_inv D M h
    obtain ⟨a1, b1⟩ := step_reqs D M h1
    obtain ⟨a2, b2⟩ := ih _ _ _ h2
    refine ⟨fun hn => a2 (a1 hn), fun k hk => ?_⟩
    rcases b2 k hk with h3 | h3
    · rcases b1 k h3 with h4 | h4
      · exact Or.inl h4
      · exact Or.inr (List.mem_append_left _ h4)
    · exact Or.inr (List.mem_append_right _ h3)

end Runs

/-! ## Completion routing -/

theorem sub64_of_le {a b : Nat} (h : b ≤ a) (ha : a < 2 ^ 64) : sub64 a b = a - b := by
  unfold sub64
  have hb : b < 2 ^ 64 := Nat.lt_of_le_of_lt h ha
  rw [Nat.mod_eq_of_lt ha, Nat.mod_eq_of_lt hb]
  omega

/-- C1: `readComplete` ends in a ProtocolViolation exactly when the handle is
not a key of `m_reqsInFlight`, or it is a key and the origin of the operation
registered under it is not a key of `m_responseFIFOs`.  After any execution
of a freshly constructed bridge, a completion for a handle that no admission
registered ends in the ProtocolViolation of the unknown handle. -/
theorem readComplete_protocolViolation_iff :
    (∀ (M : Nat) (ta : TransPtr → Nat) (st : MemorySystem) (id : Nat) (t : TransPtr) (c : Nat),
      (∃ e, readComplete M ta st id t c = .error e ∧ e.isProtocolViolation = true) ↔
        (st.m_reqsInFlight.contains t = false ∨
          ∃ op, st.m_reqsInFlight.value t = some op ∧
            st.m_responseFIFOs.contains (st.ops op).origin = false)) ∧
    (∀ (σ : Type) (D : Oracle σ) (M : Nat) (m_requests : FifoPtr)
      (ops : OpPtr → MemoryOperation) (fifos : FifoPtr → ScFifo) (es : List (Event σ))
      (st : MemorySystem) (hs : List TransPtr),
      run D M (MemorySystem.new m_requests ops fifos) es = .ok (st, hs) →
      ∀ t, t ∉ hs → ∀ (ta : TransPtr → Nat) (id c : Nat),
        readComplete M ta st id t c = .error .noMatchingOperation ∧
        Halt.noMatchingOperation.isProtocolViolation = true) := by
  constructor
  · intro M ta st id t c
    cases h1 : st.m_reqsInFlight.value t with
    | none =>
      rw [readComplete_absent M ta st id t c h1]
      have hc := (QMap.contains_eq_false_iff _ _).2 h1
      exact ⟨fun _ => Or.inl hc, fun _ => ⟨_, rfl, rfl⟩⟩
    | some op =>
      have hc : st.m_reqsInFlight.contains t = true := (QMap.contains_eq_true_iff _ _).2 ⟨op, h1⟩
      cases h2 : st.m_responseFIFOs.value (st.ops op).origin with
      | none =>
        rw [readComplete_noFIFO M ta st id t c h1 h2]
        exact ⟨fun _ => Or.inr ⟨op, rfl, (QMap.contains_eq_false_iff _ _).2 h2⟩,
          fun _ => ⟨_, rfl, rfl⟩⟩
      | some f =>
        have hf : st.m_responseFIFOs.contains (st.ops op).origin = true :=
          (QMap.contains_eq_true_iff _ _).2 ⟨f, h2⟩
        have hright : ¬ (st.m_reqsInFlight.contains t = false ∨
            ∃ op', some op = some op' ∧
              st.m_responseFIFOs.contains (st.ops op').origin = false) := by
          rintro (h | ⟨op', ho, h⟩)
          · rw [hc] at h; cases h
          · cases ho; rw [hf] at h; cases h
        cases h4 : (st.fifos f).nb_write op with
        | none =>
          rw [readComplete_full M ta st id t c h1 h2 h4]
          constructor
          · rintro ⟨e, he, hv⟩
            cases he
            cases hv
          · exact fun h => absurd h hright
        | some q =>
          rw [readComplete_push M ta st id t c h1 h2 h4]
          constructor
          · rintro ⟨e, he, _⟩
            cases he
          · exact fun h => absurd h hright
  · intro σ D M m_requests ops fifos es st hs hrun t ht ta id c
    refine ⟨?_, rfl⟩
    apply readComplete_absent
    rw [← QMap.contains_eq_false_iff]
    cases hc : st.m_reqsInFlight.contains t with
    | false => rfl
    | true =>
      rcases (run_reqs D M es _ _ _ hrun).2 t hc with h | h
      · cases h
      · exact absurd h ht

/-- C2 (as amended): on a successful `readComplete` the latency stored on the
operation is the 64-bit product of the 64-bit difference
`clock_cycle - t->timeAdded` and `MEMC_CLOCK_CYCLE`; it is never negative and
is below `2 ^ 64`.  When the transaction was added no later than it completed
and the product is below `2 ^ 64`, this is the integer
`(clock_cycle - timeAdded) * MEMC_CLOCK_CYCLE`. -/
theorem readComplete_latency (M : Nat) (ta : TransPtr → Nat) (st : MemorySystem) (id : Nat)
    (t : TransPtr) (c : Nat) (st' : MemorySystem) (op : OpPtr)
    (hop : st.m_reqsInFlight.value t = some op)
    (h : readComplete M ta st id t c = .ok st') :
    (st'.ops op).latency = sub64 c (ta t) * M % 2 ^ 64 ∧
    (0 : Int) ≤ ((st'.ops op).latency : Int) ∧
    (st'.ops op).latency < 2 ^ 64 ∧
    (ta t ≤ c → c < 2 ^ 64 → (c - ta t) * M < 2 ^ 64 →
      ((st'.ops op).latency : Int) = ((c : Int) - (ta t : Int)) * (M : Int)) := by
  obtain ⟨op', f, q, h1, _, _, rfl⟩ := readComplete_ok_inv M ta st id t c h
  rw [hop] at h1
  cases h1
  have hl : (Function.update st.ops op
      { st.ops op with isResponse := true, latency := sub64 c (ta t) * M % 2 ^ 64 } op).latency =
      sub64 c (ta t) * M % 2 ^ 64 := by
    rw [Function.update_same]
  refine ⟨hl, Int.natCast_nonneg _, ?_, fun hle hc hp => ?_⟩
  · show (Function.update st.ops op
      { st.ops op with isResponse := true, latency := sub64 c (ta t) * M % 2 ^ 64 } op).latency
        < 2 ^ 64
    rw [hl]
    exact Nat.mod_lt _ (Nat.two_pow_pos 64)
  · show ((Function.update st.ops op
      { st.ops op with isResponse := true, latency := sub64 c (ta t) * M % 2 ^ 64 } op).latency
        : Int) = _
    rw [hl, sub64_of_le hle hc, Nat.mod_eq_of_lt hp]
    push_cast [Nat.cast_sub hle]
    rfl

/-- The latency of the scenario of the specification: `MEMC_CLOCK_CYCLE` is 3,
the transaction was added at cycle 2 and completes at cycle 10. -/
theorem readComplete_latency_witness :
    ∃ st', readComplete 3 (fun _ => 2) exampleInFlight 0 100 10 = .ok st' ∧
      ((st'.ops 10).latency : Int) = 24 :=
  ⟨_, rfl, ((readComplete_latency 3 (fun _ => 2) exampleInFlight 0 100 10 _ 10 rfl rfl).2.2.2
    (by decide) (by decide) (by decide)).trans (by decide)⟩

/-- With the transaction added at cycle 1 and the completion reported at cycle
0, the latency stored is `2 ^ 64 - 3`, not the integer `(0 - 1) * 3`; with the
transaction added at cycle 0 and completed at cycle `2 ^ 63`, the latency
stored is `2 ^ 63`, not `(2 ^ 63 - 0) * 3`. -/
theorem readComplete_latency_wraps :
    (∃ st', readComplete 3 (fun _ => 1) exampleInFlight 0 100 0 = .ok st' ∧
      (st'.ops 10).latency = 2 ^ 64 - 3 ∧
      ((st'.ops 10).latency : Int) ≠ ((0 : Int) - (1 : Int)) * (3 : Int)) ∧
    (∃ st', readComplete 3 (fun _ => 0) exampleInFlight 0 100 (2 ^ 63) = .ok st' ∧
      (st'.ops 10).latency = 2 ^ 63 ∧
      ((st'.ops 10).latency : Int) ≠ ((2 ^ 63 : Int) - (0 : Int)) * (3 : Int)) :=
  ⟨⟨_, rfl, rfl, by decide⟩, ⟨_, rfl, rfl, by decide⟩⟩

/-- C5: when handle `t` maps to `op` and `readComplete` succeeds, the registry
afterwards is the registry before without the entry of `t`, every other key
keeps its value, the operation pushed to the response queue is `op` itself,
and after any further events that do not register `t` again a completion for
`t` ends in the ProtocolViolation of the unknown handle. -/
theorem readComplete_consumes_handle (M : Nat) (ta : TransPtr → Nat) (st : MemorySystem)
    (id : Nat) (t : TransPtr) (c : Nat) (st' : MemorySystem) (op : OpPtr)
    (hop : st.m_reqsInFlight.value t = some op)
    (h : readComplete M ta st id t c = .ok st') :
    st'.m_reqsInFlight = st.m_reqsInFlight.remove t ∧
    st'.m_reqsInFlight.entries =
      st.m_reqsInFlight.entries.filter (fun e => !decide (e.1 = t)) ∧
    st'.m_reqsInFlight.contains t = false ∧
    (∀ k, k ≠ t → st'.m_reqsInFlight.value k = st.m_reqsInFlight.value k) ∧
    (∃ f, st.m_responseFIFOs.value (st.ops op).origin = some f ∧
      (st'.fifos f).items = (st.fifos f).items ++ [op]) ∧
    (∀ (σ : Type) (D : Oracle σ) (es : List (Event σ)) (st'' : MemorySystem)
      (hs : List TransPtr), run D M st' es = .ok (st'', hs) → t ∉ hs →
      ∀ (ta' : TransPtr → Nat) (id' c' : Nat),
        readComplete M ta' st'' id' t c' = .error .noMatchingOperation ∧
        Halt.noMatchingOperation.isProtocolViolation = true) := by
  obtain ⟨op', f, q, h1, h2, h3, rfl⟩ := readComplete_ok_inv M ta st id t c h
  rw [hop] at h1
  cases h1
  have hgone : (st.m_reqsInFlight.remove t).contains t = false :=
    (QMap.contains_eq_false_iff _ _).2 (QMap.value_remove_self _ _)
  refine ⟨rfl, rfl, hgone, fun k hk => QMap.value_remove_of_ne _ hk, ⟨f, h2, ?_⟩, ?_⟩
  · unfold ScFifo.nb_write at h3
    split at h3
    · cases h3
      simp
    · cases h3
  · intro σ D es st'' hs hrun ht ta' id' c'
    refine ⟨?_, rfl⟩
    apply readComplete_absent
    rw [← QMap.contains_eq_false_iff]
    cases hc : st''.m_reqsInFlight.contains t with
    | false => rfl
    | true =>
      rcases (run_reqs D M es _ _ _ hrun).2 t hc with h | h
      · rw [hgone] at h; cases h
      · exact absurd h ht

/-- The read A of the example is in flight under handle 100: its completion
removes the only entry, and a second completion for 100 is rejected. -/
theorem readComplete_consumes_handle_witness :
    ∃ st', readComplete 3 (fun _ => 2) exampleInFlight 0 100 10 = .ok st' ∧
      st'.m_reqsInFlight.entries = [] ∧
      readComplete 3 (fun _ => 2) st' 0 100 11 = .error .noMatchingOperation :=
  ⟨_, rfl,
    (readComplete_consumes_handle 3 (fun _ => 2) exampleInFlight 0 100 10 _ 10 rfl rfl).2.1,
    ((readComplete_consumes_handle 3 (fun _ => 2) exampleInFlight 0 100 10 _ 10 rfl rfl).2.2.2.2.2
      Unit reusingOracle [] _ [] rfl (by decide) (fun _ => 2) 0 11).1⟩

/-- C6: with `t` registered for `op` and the origin of `op` registered for
queue `f`, `readComplete` ends in ResourceExhaustion exactly when the
non-blocking write to `f` fails, which is exactly when `f` is full.  In the
scenario of the specification (response queue of capacity 1 for origin 0, reads
A and B admitted), the completion of A succeeds and leaves the queue holding
A, and the completion of B that follows ends in ResourceExhaustion. -/
theorem readComplete_resourceExhaustion_iff :
    (∀ (M : Nat) (ta : TransPtr → Nat) (st : MemorySystem) (id : Nat) (t : TransPtr) (c : Nat)
      (op : OpPtr) (f : FifoPtr), st.m_reqsInFlight.value t = some op →
      st.m_responseFIFOs.value (st.ops op).origin = some f →
      ((∃ e, readComplete M ta st id t c = .error e ∧ e.isResourceExhaustion = true) ↔
        (st.fifos f).nb_write op = none) ∧
      ((st.fifos f).nb_write op = none ↔ (st.fifos f).size ≤ (st.fifos f).items.length)) ∧
    (∃ st hs, run exampleOracle 3 (MemorySystem.new 0 exampleOps exampleFifos)
        exampleCompletion = .ok (st, hs) ∧
      (st.m_responseFIFOs.value 0 = some 1 ∧ (exampleFifos 1).size = 1) ∧
      (st.fifos 1).items = [10] ∧
      ((st.ops 10).origin = 0 ∧ (st.ops 10).address = 0x100) ∧
      ((st.ops 11).origin = 0 ∧ (st.ops 11).address = 0x200) ∧
      st.m_reqsInFlight.value 101 = some 11 ∧
      readComplete 3 (fun _ => 2) st 0 101 12 = .error .responseFIFOFull ∧
      Halt.responseFIFOFull.isResourceExhaustion = true) := by
  constructor
  · intro M ta st id t c op f h1 h2
    have hfull : (st.fifos f).nb_write op = none ↔
        (st.fifos f).size ≤ (st.fifos f).items.length := by
      unfold ScFifo.nb_write
      split
      · rename_i hlt
        simp only [reduceCtorEq, false_iff, not_le]
        exact hlt
      · rename_i hlt
        simp only [true_iff]
        exact Nat.le_of_not_lt hlt
    refine ⟨?_, hfull⟩
    cases h4 : (st.fifos f).nb_write op with
    | none =>
      rw [readComplete_full M ta st id t c h1 h2 h4]
      exact ⟨fun _ => rfl, fun _ => ⟨_, rfl, rfl⟩⟩
    | some q =>
      rw [readComplete_push M ta st id t c h1 h2 h4]
      constructor
      · rintro ⟨e, he, _⟩
        cases he
      · intro h
        cases h
  · exact ⟨_, _, rfl, ⟨rfl, rfl⟩, rfl, ⟨rfl, rfl⟩, ⟨rfl, rfl⟩, rfl, rfl, rfl⟩

/-- C8 (as amended): a successful `readComplete` appends the operation registered under the
handle, with its response flag set, at the tail of the queue that
`m_responseFIFOs` gives for its origin, and that queue grows by this one
element; every other queue object (so the queue of every other origin that is
bound to a different queue object, and the request queue when it is a
different queue object), the binding of the request queue and
`m_responseFIFOs` are unchanged. -/
theorem readComplete_routes_response (M : Nat) (ta : TransPtr → Nat) (st : MemorySystem)
    (id : Nat) (t : TransPtr) (c : Nat) (st' : MemorySystem)
    (h : readComplete M ta st id t c = .ok st') :
    ∃ op f, st.m_reqsInFlight.value t = some op ∧
      st.m_responseFIFOs.value (st.ops op).origin = some f ∧
      (st'.fifos f).items = (st.fifos f).items ++ [op] ∧
      (st'.fifos f).items.length = (st.fifos f).items.length + 1 ∧
      (st'.fifos f).size = (st.fifos f).size ∧
      (st'.ops op).isResponse = true ∧
      (st'.ops op).origin = (st.ops op).origin ∧
      (∀ g, g ≠ f → st'.fifos g = st.fifos g) ∧
      (∀ o g, o ≠ (st.ops op).origin → st.m_responseFIFOs.value o = some g → g ≠ f →
        st'.m_responseFIFOs.value o = some g ∧ st'.fifos g = st.fifos g) ∧
      (st.m_requests ≠ f → st'.fifos st'.m_requests = st.fifos st.m_requests) ∧
      st'.m_requests = st.m_requests ∧
      st'.m_responseFIFOs = st.m_responseFIFOs := by
  obtain ⟨op, f, q, h1, h2, h3, rfl⟩ := readComplete_ok_inv M ta st id t c h
  have hq : q = { st.fifos f with items := (st.fifos f).items ++ [op] } := by
    unfold ScFifo.nb_write at h3
    split at h3
    · exact (Option.some.inj h3).symm
    · cases h3
  subst hq
  refine ⟨op, f, h1, h2, ?_, ?_, ?_, ?_, ?_, ?_, ?_, ?_, rfl, rfl⟩
  · simp
  · simp
  · simp
  · simp
  · simp
  · intro g hg
    exact Function.update_noteq hg _ _
  · intro o g _ hg hne
    exact ⟨hg, Function.update_noteq hne _ _⟩
  · intro hne
    exact Function.update_noteq hne _ _

/-- Origins 0 and 1 bound to the same queue 1: the completion of read A, of
origin 0, changes the queue that `m_responseFIFOs` gives for origin 1.  Queue
0 bound both as request queue and as response queue of origin 0: the
completion of read A changes the request queue. -/
theorem readComplete_changes_shared_queue :
    (∃ st0 hs st1, run exampleOracle 3 (MemorySystem.new 0 exampleOps exampleFifos)
        exampleSharedSetup = .ok (st0, hs) ∧
      readComplete 3 (fun _ => 2) st0 0 100 10 = .ok st1 ∧
      st0.m_reqsInFlight.value 100 = some 10 ∧ (st0.ops 10).origin = 0 ∧
      st0.m_responseFIFOs.value 1 = some 1 ∧
      (st0.fifos 1).items = [] ∧ (st1.fifos 1).items = [10]) ∧
    (∃ st0 hs st1, run exampleOracle 3 (MemorySystem.new 0 exampleOps exampleFifos)
        exampleLoopSetup = .ok (st0, hs) ∧
      readComplete 3 (fun _ => 2) st0 0 100 10 = .ok st1 ∧
      st0.m_requests = 0 ∧ st1.m_requests = 0 ∧
      (st0.fifos st0.m_requests).items = [] ∧ (st1.fifos st1.m_requests).items = [10]) :=
  ⟨⟨_, _, _, rfl, rfl, rfl, rfl, rfl, rfl, rfl⟩, ⟨_, _, _, rfl, rfl, rfl, rfl, rfl, rfl⟩⟩

/-- The completion of read A in the example: queue 1 of origin 0 receives A,
queue 0, the request queue, keeps B. -/
theorem readComplete_routes_response_witness :
    ∃ st', readComplete 3 (fun _ => 2) exampleInFlight 0 100 10 = .ok st' ∧
      (∃ op f, exampleInFlight.m_reqsInFlight.value 100 = some op ∧
        exampleInFlight.m_responseFIFOs.value (exampleInFlight.ops op).origin = some f ∧
        (st'.fifos f).items = (exampleInFlight.fifos f).items ++ [op]) ∧
      (st'.fifos 1).items = [10] ∧ (st'.fifos 0).items = [11] :=
  ⟨_, rfl,
    (readComplete_routes_response 3 (fun _ => 2) exampleInFlight 0 100 10 _ rfl).imp
      (fun _ hop => hop.imp (fun _ hf => ⟨hf.1, hf.2.1, hf.2.2.1⟩)),
    rfl, rfl⟩

/-! ## Admission -/

theorem QMap.length_remove_of_nodup {K V : Type} [DecidableEq K] :
    ∀ (l : List (K × V)) (k : K), (l.map Prod.fst).Nodup → k ∈ l.map Prod.fst →
      (l.filter (fun e => !decide (e.1 = k))).length + 1 = l.length := by
  intro l
  induction l with
  | nil => intro k _ hk; cases hk
  | cons e l ih =>
    intro k hn hk
    rw [List.map_cons, List.nodup_cons] at hn
    by_cases hek : e.1 = k
    · subst hek
      have h2 : l.filter (fun x => !decide (x.1 = e.1)) = l := by
        rw [List.filter_eq_self]
        intro x hx
        have : x.1 ≠ e.1 := fun hxe => hn.1 (hxe ▸ List.mem_map_of_mem Prod.fst hx)
        simpa using this
      rw [List.filter_cons_of_neg (by simp), h2]
      rfl
    · rw [List.filter_cons_of_pos (by simpa using hek)]
      have hk' : k ∈ l.map Prod.fst := by
        rcases List.mem_cons.1 hk with h | h
        · exact absurd h.symm hek
        · exact h
      simp only [List.length_cons]
      rw [ih k hn.2 hk']

theorem QMap.size_insert_of_contains {K V : Type} [DecidableEq K] (m : QMap K V) (k : K) (v : V)
    (hn : m.keys.Nodup) (h : m.contains k = true) : (m.insert k v).size = m.size := by
  have hk : k ∈ m.keys := (QMap.mem_keys_iff m k).2 h
  exact QMap.length_remove_of_nodup m.entries k hn hk

section AdmitRegistry

variable {σ : Type}

end AdmitRegistry

/-- C10: one admission batch on a request queue holding `n` operations
returns, whatever the oracle, with any fuel above `n`; it makes at most `n`
submissions, the operations submitted followed by the queue that remains are
the queue before, every submission is made in an oracle state that reported
capacity and that the previous submission left, and on return the request
queue is empty or the oracle reports no capacity. -/
theorem admitPending_terminates {σ : Type} (D : Oracle σ) (st : MemorySystem) (w : σ) :
    ∃ st' w' log,
      (∀ fuel, (st.fifos st.m_requests).num_available < fuel →
        admitLoop D fuel st w = some (st', w', log)) ∧
      admitPending D st w = some (st', w', log) ∧
      log.length ≤ (st.fifos st.m_requests).num_available ∧
      (st.fifos st.m_requests).items =
        log.map (fun s => s.op) ++ (st'.fifos st'.m_requests).items ∧
      (st'.fifos st'.m_requests).num_available + log.length =
        (st.fifos st.m_requests).num_available ∧
      (∀ s ∈ log, D.willAcceptTransaction s.before = true) ∧
      oracleTrace D w log w' ∧
      ((st'.fifos st'.m_requests).num_available = 0 ∨ D.willAcceptTransaction w' = false) := by
  obtain ⟨st', w', log, hrun, post⟩ := admitPending_spec D st w
  have hq : (st.fifos st.m_requests).items =
      log.map (fun s => s.op) ++ (st'.fifos st'.m_requests).items := by
    rw [post.requests]
    exact post.queue
  have hlen : (st'.fifos st'.m_requests).num_available + log.length =
      (st.fifos st.m_requests).num_available := by
    unfold ScFifo.num_available
    rw [hq]
    simp [Nat.add_comm]
  refine ⟨st', w', log, ?_, hrun, ?_, hq, hlen, fun s hs => (post.objs s hs).2.1, post.chain, ?_⟩
  · intro fuel hf
    exact admitLoop_fuel_le D hf st w _ hrun
  · omega
  · rcases post.exit with h | h
    · left
      unfold ScFifo.num_available
      rw [post.requests, h]
      rfl
    · exact Or.inr h

/-! ## Statistics -/

section Statistics

variable {σ : Type} (D : Oracle σ) (M : Nat)

theorem cycleSamples_cons (e : Event σ) (es : List (Event σ)) :
    cycleSamples (e :: es) = cycleSamples [e] ++ cycleSamples es := by
  cases e <;> rfl

theorem powerValues_cons (i : Fin 4) (e : Event σ) (es : List (Event σ)) :
    powerValues i (e :: es) = powerValues i [e] ++ powerValues i es := by
  cases e <;> rfl

theorem powerValues_length (i : Fin 4) : ∀ es : List (Event σ),
    (powerValues i es).length = (powerValues 0 es).length := by
  intro es
  induction es with
  | nil => rfl
  | cons e es ih =>
    rw [powerValues_cons, powerValues_cons 0, List.length_append, List.length_append, ih]
    cases e <;> rfl

theorem powerCallback_sum (st : MemorySystem) (b u r a : ℚ) (i : Fin 4) :
    (powerCallback st b u r a).m_powerSum i = st.m_powerSum i + ![b, u, r, a] i := by
  fin_cases i <;> simp [powerCallback, Function.update]

theorem StatsStep.refl (st : MemorySystem) : StatsStep st st [] (fun _ => []) :=
  ⟨rfl, rfl, id, id, fun _ => by simp, rfl, id⟩

theorem StatsStep.of_eq {st st1 : MemorySystem} (h1 : st1.m_latencySum = st.m_latencySum)
    (h2 : st1.m_latencySamples = st.m_latencySamples) (h3 : st1.m_powerSum = st.m_powerSum)
    (h4 : st1.m_powerSamples = st.m_powerSamples) : StatsStep st st1 [] (fun _ => []) :=
  ⟨by rw [h1]; rfl, by rw [h2]; rfl, by rw [h1]; exact id, by rw [h2]; exact id,
    fun _ => by rw [h3]; simp, by rw [h4]; rfl, by rw [h4]; exact id⟩

theorem StatsStep.trans {st st1 st2 : MemorySystem} {ds1 ds2 : List Nat}
    {ps1 ps2 : Fin 4 → List ℚ} (a : StatsStep st st1 ds1 ps1) (b : StatsStep st1 st2 ds2 ps2) :
    StatsStep st st2 (ds1 ++ ds2) (fun i => ps1 i ++ ps2 i) := by
  refine ⟨?_, ?_, fun h => b.latencySum_lt (a.latencySum_lt h),
    fun h => b.latencySamples_lt (a.latencySamples_lt h), ?_, ?_,
    fun h => b.powerSamples_lt (a.powerSamples_lt h)⟩
  · have h1 := a.latencySum
    have h2 := b.latencySum
    rw [List.sum_append]
    omega
  · have h1 := a.latencySamples
    have h2 := b.latencySamples
    rw [List.length_append]
    omega
  · intro i
    rw [b.powerSum i, a.powerSum i, List.sum_append]
    ring
  · have h1 := a.powerSamples
    have h2 := b.powerSamples
    rw [List.length_append]
    omega

theorem step_stats {st st1 : MemorySystem} {e : Event σ} {hs : List TransPtr}
    (h : step D M st e = .ok (st1, hs)) :
    StatsStep st st1 (cycleSamples [e]) (fun i => powerValues i [e]) := by
  cases e with
  | admission w =>
    obtain ⟨w', log, _, post, _⟩ := step_admission_inv D M h
    exact StatsStep.of_eq post.latencySum post.latencySamples post.powerSum post.powerSamples
  | readComplete id t c ta =>
    obtain ⟨hr, _⟩ := step_readComplete_inv D M h
    obtain ⟨op, f, q, _, _, _, rfl⟩ := readComplete_ok_inv M ta st id t c hr
    refine ⟨?_, ?_, fun _ => Nat.mod_lt _ (by decide), fun _ => Nat.mod_lt _ (by decide),
      fun _ => by simp [powerValues], rfl, fun hlt => hlt⟩
    · simp [cycleSamples]
    · simp [cycleSamples]
  | powerCallback b u r a =>
    simp only [step] at h
    injection h with h
    injection h with h1 h2
    subst h1
    refine ⟨rfl, rfl, id, id, fun i => ?_, ?_, fun _ => Nat.mod_lt _ (by decide)⟩
    · rw [powerCallback_sum]
      simp [powerValues]
    · simp [powerCallback, powerValues]
  | setRequestFIFO _ | setResponseFIFO _ _ | writeComplete _ _ _ | environment _ _ =>
    simp only [step] at h
    injection h with h
    injection h with h1 h2
    subst h1
    exact StatsStep.of_eq rfl rfl rfl rfl

theorem run_stats : ∀ (es : List (Event σ)) (st st1 : MemorySystem) (hs : List TransPtr),
    run D M st es = .ok (st1, hs) →
    StatsStep st st1 (cycleSamples es) (fun i => powerValues i es) := by
  intro es
  induction es with
  | nil =>
    intro st st1 hs h
    obtain ⟨rfl, rfl⟩ := run_nil_inv D M h
    exact StatsStep.refl _
  | cons e es ih =>
    intro st st2 hs h
    obtain ⟨st1, hs1, hs2, h1, h2, rfl⟩ := run_cons_inv D M h
    have := (step_stats D M h1).trans (ih _ _ _ h2)
    rw [cycleSamples_cons]
    have hp : (fun i => powerValues i (e :: es)) =
        (fun i => powerValues i [e] ++ powerValues i es) := by
      funext i
      exact powerValues_cons i e es
    rw [hp]
    exact this

theorem divCount_eq_mean {sum : ℚ} {count : Nat} {l : List ℚ} (hs : sum = l.sum)
    (hc : count = l.length) (h1 : 1 ≤ l.length) : divCount sum count = some (mean l) := by
  unfold divCount mean
  rw [if_neg (by omega), hs, hc]

theorem roundTiesEven_intCast (z : ℤ) : roundTiesEven (z : ℚ) = z := by
  unfold roundTiesEven
  rw [Int.floor_intCast]
  simp

/-- A natural number below `2 ^ 53` is a binary64 value. -/
theorem roundDouble_natCast (n : Nat) (h : n < 2 ^ 53) : roundDouble (n : ℚ) = n := by
  unfold roundDouble
  by_cases h0 : n = 0
  · subst h0
    simp
  · have hq : (n : ℚ) ≠ 0 := Nat.cast_ne_zero.2 h0
    have hpos : (0 : ℚ) ≤ (n : ℚ) := Nat.cast_nonneg n
    rw [if_neg hq, abs_of_nonneg hpos, Int.log_natCast, if_neg (not_lt.2 hpos), mul_one]
    have hk : Nat.log 2 n < 53 := Nat.log_lt_of_lt_pow h0 h
    obtain ⟨j, hj⟩ : ∃ j : Nat, ((Nat.log 2 n : ℤ) - 52) = -(j : ℤ) :=
      ⟨52 - Nat.log 2 n, by omega⟩
    rw [hj, zpow_neg, zpow_natCast, div_inv_eq_mul]
    have hcast : ((n : ℚ) * 2 ^ j) = (((n * 2 ^ j : ℕ) : ℤ) : ℚ) := by
      push_cast
      ring
    rw [hcast, roundTiesEven_intCast]
    push_cast
    field_simp

theorem sum_map_natCast (l : List Nat) :
    (l.map (fun (d : Nat) => (d : ℚ))).sum = ((l.sum : Nat) : ℚ) := by
  induction l with
  | nil => simp
  | cons d l ih =>
    rw [List.map_cons, List.sum_cons, List.sum_cons, ih, Nat.cast_add]

theorem sum_map_mul_mod (l : List Nat) (h : ∀ d ∈ l, d * M < 2 ^ 64) :
    (l.map (fun d => d * M % 2 ^ 64)).sum = l.sum * M := by
  induction l with
  | nil => simp
  | cons d l ih =>
    have hd : d * M < 2 ^ 64 := h d (List.mem_cons_self _ _)
    have hl := ih (fun x hx => h x (List.mem_cons_of_mem _ hx))
    rw [List.map_cons, List.sum_cons, List.sum_cons, Nat.mod_eq_of_lt hd, hl, Nat.add_mul]

theorem storedLatencies_eq : ∀ (es : List (Event σ)) (st st1 : MemorySystem)
    (hs : List TransPtr), run D M st es = .ok (st1, hs) →
    storedLatencies D M st es = (cycleSamples es).map (fun d => d * M % 2 ^ 64) := by
  intro es
  induction es with
  | nil => intro st st1 hs _; rfl
  | cons e es ih =>
    intro st st2 hs h
    obtain ⟨st1, hs1, hs2, h1, h2, rfl⟩ := run_cons_inv D M h
    have hrec := ih _ _ _ h2
    cases e with
    | readComplete id t c ta =>
      obtain ⟨hr, _⟩ := step_readComplete_inv D M h1
      obtain ⟨op, f, q, hop, _, _, hst1⟩ := readComplete_ok_inv M ta st id t c hr
      simp only [storedLatencies, h1, hrec, cycleSamples, List.map_cons,
        QMap.index_of_value hop]
      rw [hst1]
      simp
    | setRequestFIFO _ | setResponseFIFO _ _ | admission _ | writeComplete _ _ _
    | powerCallback _ _ _ _ | environment _ _ =>
      simp only [storedLatencies, h1, hrec, cycleSamples]

end Statistics

/-- C3 (as amended): after an execution of a freshly constructed bridge,
`m_latencySum` is the sum, modulo `2 ^ 64`, of the cycle counts
`clock_cycle - t->timeAdded` of the read completions and `m_latencySamples` is
their number modulo `2 ^ 64`, while the latency found on each completed
operation is its cycle count times `MEMC_CLOCK_CYCLE` modulo `2 ^ 64`.  With at
least one completion, and the number of completions and the sum of the cycle
counts below `2 ^ 53`, `getAverageReqRespLatency` is the binary64 value
nearest to the arithmetic mean of the cycle counts.  When no product and no
sum reaches `2 ^ 64`, the latencies found on the operations add up to
`m_latencySum * MEMC_CLOCK_CYCLE`. -/
theorem averageLatency_eq_mean_cycles {σ : Type} (D : Oracle σ) (M : Nat) (m_requests : FifoPtr)
    (ops : OpPtr → MemoryOperation) (fifos : FifoPtr → ScFifo) (es : List (Event σ))
    (st : MemorySystem) (hs : List TransPtr)
    (hrun : run D M (MemorySystem.new m_requests ops fifos) es = .ok (st, hs)) :
    st.m_latencySum = (cycleSamples es).sum % 2 ^ 64 ∧
    st.m_latencySamples = (cycleSamples es).length % 2 ^ 64 ∧
    storedLatencies D M (MemorySystem.new m_requests ops fifos) es =
      (cycleSamples es).map (fun d => d * M % 2 ^ 64) ∧
    (1 ≤ (cycleSamples es).length → (cycleSamples es).length < 2 ^ 53 →
      (cycleSamples es).sum < 2 ^ 53 →
      getAverageReqRespLatency st =
        some (roundDouble (mean ((cycleSamples es).map (fun (d : Nat) => (d : ℚ)))))) ∧
    ((∀ d ∈ cycleSamples es, d * M < 2 ^ 64) → (cycleSamples es).sum < 2 ^ 64 →
      (storedLatencies D M (MemorySystem.new m_requests ops fifos) es).sum =
        st.m_latencySum * M) := by
  have hst := run_stats D M es _ _ _ hrun
  have e1 : st.m_latencySum = (cycleSamples es).sum % 2 ^ 64 := by
    have a := hst.latencySum
    have b := hst.latencySum_lt (Nat.two_pow_pos 64)
    rw [Nat.mod_eq_of_lt b] at a
    rw [a]
    show (0 + (cycleSamples es).sum) % 2 ^ 64 = _
    rw [Nat.zero_add]
  have e2 : st.m_latencySamples = (cycleSamples es).length % 2 ^ 64 := by
    have a := hst.latencySamples
    have b := hst.latencySamples_lt (Nat.two_pow_pos 64)
    rw [Nat.mod_eq_of_lt b] at a
    rw [a]
    show (0 + (cycleSamples es).length) % 2 ^ 64 = _
    rw [Nat.zero_add]
  have e3 := storedLatencies_eq D M es _ _ _ hrun
  refine ⟨e1, e2, e3, fun h1 h2 h3 => ?_, fun hp hsum => ?_⟩
  · have h2' : (cycleSamples es).length < 2 ^ 64 := Nat.lt_trans h2 (by decide)
    have h3' : (cycleSamples es).sum < 2 ^ 64 := Nat.lt_trans h3 (by decide)
    rw [Nat.mod_eq_of_lt h3'] at e1
    rw [Nat.mod_eq_of_lt h2'] at e2
    unfold getAverageReqRespLatency
    rw [if_neg (by omega), e1, e2, roundDouble_natCast _ h2, roundDouble_natCast _ h3]
    unfold mean
    rw [sum_map_natCast, List.length_map]
  · rw [e3, e1, Nat.mod_eq_of_lt hsum]
    exact sum_map_mul_mod M _ hp

/-- One read of the example, added at cycle 2 and completed at cycle 10: the
average is 8 cycles, the latency found on the operation is 24. -/
theorem averageLatency_eq_mean_cycles_witness :
    ∃ st hs, run exampleOracle 3 (MemorySystem.new 0 exampleOps exampleFifos)
        exampleCompletion = .ok (st, hs) ∧
      st.m_latencySum = 8 ∧ st.m_latencySamples = 1 ∧
      getAverageReqRespLatency st = some (roundDouble (mean [(8 : ℚ)])) ∧
      (storedLatencies exampleOracle 3 (MemorySystem.new 0 exampleOps exampleFifos)
        exampleCompletion).sum = st.m_latencySum * 3 :=
  ⟨_, _, rfl, rfl, rfl,
    (averageLatency_eq_mean_cycles exampleOracle 3 0 exampleOps exampleFifos
      exampleCompletion _ _ rfl).2.2.2.1 (by decide) (by decide) (by decide) |>.trans
      (by simp [exampleCompletion, exampleSetup, cycleSamples, sub64]),
    (averageLatency_eq_mean_cycles exampleOracle 3 0 exampleOps exampleFifos
      exampleCompletion _ _ rfl).2.2.2.2 (by decide) (by decide)⟩

/-- With `MEMC_CLOCK_CYCLE` 3, one read added at cycle 2 and completed at cycle
10 has latency 24 stored on the operation, and the average latency reported is
8, not the mean 24 of the stored latencies. -/
theorem averageLatency_not_mean_of_stored_latency :
    ∃ st hs, run exampleOracle 3 (MemorySystem.new 0 exampleOps exampleFifos)
        exampleCompletion = .ok (st, hs) ∧
      (st.ops 10).latency = 24 ∧
      storedLatencies exampleOracle 3 (MemorySystem.new 0 exampleOps exampleFifos)
        exampleCompletion = [24] ∧
      getAverageReqRespLatency st = some 8 ∧
      mean [((st.ops 10).latency : ℚ)] = 24 ∧
      getAverageReqRespLatency st ≠ some (mean [((st.ops 10).latency : ℚ)]) ∧
      getAverageReqRespLatency st ≠ some (roundDouble (mean [((st.ops 10).latency : ℚ)])) := by
  obtain ⟨st, hs, hrun, hl, hsum, hn⟩ :
      ∃ st hs, run exampleOracle 3 (MemorySystem.new 0 exampleOps exampleFifos)
        exampleCompletion = .ok (st, hs) ∧
      (st.ops 10).latency = 24 ∧ st.m_latencySum = 8 ∧ st.m_latencySamples = 1 :=
    ⟨_, _, rfl, rfl, rfl, rfl⟩
  have r8 : roundDouble (8 : ℚ) = 8 := by
    exact_mod_cast roundDouble_natCast 8 (by decide)
  have r1 : roundDouble (1 : ℚ) = 1 := by
    exact_mod_cast roundDouble_natCast 1 (by decide)
  have r24 : roundDouble (24 : ℚ) = 24 := by
    exact_mod_cast roundDouble_natCast 24 (by decide)
  have havg : getAverageReqRespLatency st = some 8 := by
    unfold getAverageReqRespLatency
    rw [hsum, hn, if_neg (by decide)]
    norm_num [r8, r1]
  have hmean : mean [((st.ops 10).latency : ℚ)] = 24 := by
    rw [hl]
    norm_num [mean]
  refine ⟨st, hs, hrun, hl, rfl, havg, hmean, ?_, ?_⟩
  · rw [havg, hmean]
    norm_num
  · rw [havg, hmean, r24]
    norm_num

/-- C4 (as amended): after any execution of a freshly constructed bridge the
keys of `m_reqsInFlight` are pairwise distinct.  When the loop body admits a
read and the pointer of its transaction is already a key, the body returns
normally: the operation registered under that key is replaced by the read just
admitted, every other key keeps its value, and the keys stay distinct and as
many as before. -/
theorem reqsInFlight_keys_unique :
    (∀ (σ : Type) (D : Oracle σ) (M : Nat) (m_requests : FifoPtr)
      (ops : OpPtr → MemoryOperation) (fifos : FifoPtr → ScFifo) (es : List (Event σ))
      (st : MemorySystem) (hs : List TransPtr),
      run D M (MemorySystem.new m_requests ops fifos) es = .ok (st, hs) →
      st.m_reqsInFlight.keys.Nodup) ∧
    (∀ (σ : Type) (D : Oracle σ) (st : MemorySystem) (w : σ) (op : OpPtr) (rest : List OpPtr),
      (st.fifos st.m_requests).items = op :: rest → (st.ops op).isWrite = false →
      st.m_reqsInFlight.contains (D.newTransaction w (transactionFor (st.ops op))).1 = true →
      ∃ st1 w1 s, admitBody D st w = some (st1, w1, s) ∧ s.op = op ∧
        s.trans = (D.newTransaction w (transactionFor (st.ops op))).1 ∧
        st1.m_reqsInFlight.value s.trans = some op ∧
        (∀ k, k ≠ s.trans → st1.m_reqsInFlight.value k = st.m_reqsInFlight.value k) ∧
        (st.m_reqsInFlight.keys.Nodup →
          st1.m_reqsInFlight.keys.Nodup ∧ st1.m_reqsInFlight.size = st.m_reqsInFlight.size)) := by
  constructor
  · intro σ D M m_requests ops fifos es st hs hrun
    exact (run_reqs D M es _ _ _ hrun).1 List.nodup_nil
  · intro σ D st w op rest hitems hread hkey
    refine ⟨_, _, _, admitBody_cons D st w hitems, rfl, rfl, ?_⟩
    rw [hread]
    refine ⟨QMap.value_insert_self _ _ _, fun k hk => QMap.value_insert_of_ne _ _ hk,
      fun hn => ⟨QMap.nodup_keys_insert hn _ _, QMap.size_insert_of_contains _ _ _ hn hkey⟩⟩

/-- Read A is in flight under handle 100 and the allocator returns pointer 100
for the transaction of read B: the admission batch returns normally and handle
100 now maps to B; no ProtocolViolation is raised. -/
theorem admission_of_existing_handle_replaces :
    ∃ st', step reusingOracle 3 exampleInFlight (.admission ()) = .ok (st', [100]) ∧
      exampleInFlight.m_reqsInFlight.value 100 = some 10 ∧
      (exampleInFlight.fifos exampleInFlight.m_requests).items = [11] ∧
      (exampleInFlight.ops 11).isWrite = false ∧
      st'.m_reqsInFlight.value 100 = some 11 ∧
      st'.m_reqsInFlight.entries = [(100, 11)] :=
  ⟨_, rfl, rfl, rfl, rfl, rfl, rfl⟩

/-- C9: after an execution of a freshly constructed bridge that contains `N`
calls of `powerCallback` among any other events, each of the four power sums
is the sum of the values passed for its component and `m_powerSamples` is `N`
modulo `2 ^ 64`; for `1 ≤ N < 2 ^ 64` each of the four average-power getters
returns the arithmetic mean of the `N` values passed for its component.
`powerCallback` always returns, and leaves every member but `m_powerSum` and
`m_powerSamples`, every operation and every queue as they were. -/
theorem averagePower_eq_mean {σ : Type} (D : Oracle σ) (M : Nat) (m_requests : FifoPtr)
    (ops : OpPtr → MemoryOperation) (fifos : FifoPtr → ScFifo) (es : List (Event σ))
    (st : MemorySystem) (hs : List TransPtr)
    (hrun : run D M (MemorySystem.new m_requests ops fifos) es = .ok (st, hs)) :
    (∀ i, st.m_powerSum i = (powerValues i es).sum ∧
      (powerValues i es).length = (powerValues 0 es).length) ∧
    st.m_powerSamples = (powerValues 0 es).length % 2 ^ 64 ∧
    (1 ≤ (powerValues 0 es).length → (powerValues 0 es).length < 2 ^ 64 →
      getAveragePowerBackground st = some (mean (powerValues 0 es)) ∧
      getAveragePowerBurst st = some (mean (powerValues 1 es)) ∧
      getAveragePowerRefresh st = some (mean (powerValues 2 es)) ∧
      getAveragePowerActPre st = some (mean (powerValues 3 es))) ∧
    (∀ (s : MemorySystem) (b u r a : ℚ),
      step D M s (.powerCallback b u r a) = .ok (powerCallback s b u r a, []) ∧
      (powerCallback s b u r a).m_requests = s.m_requests ∧
      (powerCallback s b u r a).m_responseFIFOs = s.m_responseFIFOs ∧
      (powerCallback s b u r a).m_reqsInFlight = s.m_reqsInFlight ∧
      (powerCallback s b u r a).m_latencySamples = s.m_latencySamples ∧
      (powerCallback s b u r a).m_latencySum = s.m_latencySum ∧
      (powerCallback s b u r a).ops = s.ops ∧
      (powerCallback s b u r a).fifos = s.fifos) := by
  have hst := run_stats D M es _ _ _ hrun
  have e2 : st.m_powerSamples = (powerValues 0 es).length % 2 ^ 64 := by
    have a := hst.powerSamples
    have b := hst.powerSamples_lt (Nat.two_pow_pos 64)
    rw [Nat.mod_eq_of_lt b] at a
    rw [a]
    show (0 + (powerValues 0 es).length) % 2 ^ 64 = _
    rw [Nat.zero_add]
  have e1 : ∀ i, st.m_powerSum i = (powerValues i es).sum := by
    intro i
    rw [hst.powerSum i]
    show (0 : ℚ) + _ = _
    rw [zero_add]
  refine ⟨fun i => ⟨e1 i, powerValues_length i es⟩, e2, fun h1 h2 => ?_,
    fun s b u r a => ⟨rfl, rfl, rfl, rfl, rfl, rfl, rfl, rfl⟩⟩
  rw [Nat.mod_eq_of_lt h2] at e2
  have key : ∀ i, divCount (st.m_powerSum i) st.m_powerSamples = some (mean (powerValues i es)) :=
    fun i => divCount_eq_mean (e1 i) (by rw [e2, powerValues_length i])
      (by rw [powerValues_length i]; exact h1)
  exact ⟨key 0, key 1, key 2, key 3⟩

/-- Two power samples around an admission batch: the averages are the means
of the two values of each component. -/
theorem averagePower_eq_mean_witness :
    ∃ st hs, run exampleOracle 3 (MemorySystem.new 0 exampleOps exampleFifos)
        examplePower = .ok (st, hs) ∧
      getAveragePowerBackground st = some 2 ∧ getAveragePowerBurst st = some 4 ∧
      getAveragePowerRefresh st = some 6 ∧ getAveragePowerActPre st = some 8 :=
  ⟨_, _, rfl,
    ((averagePower_eq_mean exampleOracle 3 0 exampleOps exampleFifos examplePower _ _ rfl).2.2.1
      (by decide) (by decide)).1.trans (by norm_num [mean, powerValues, examplePower]),
    ((averagePower_eq_mean exampleOracle 3 0 exampleOps exampleFifos examplePower _ _ rfl).2.2.1
      (by decide) (by decide)).2.1.trans (by norm_num [mean, powerValues, examplePower]),
    ((averagePower_eq_mean exampleOracle 3 0 exampleOps exampleFifos examplePower _ _ rfl).2.2.1
      (by decide) (by decide)).2.2.1.trans (by norm_num [mean, powerValues, examplePower]),
    ((averagePower_eq_mean exampleOracle 3 0 exampleOps exampleFifos examplePower _ _ rfl).2.2.1
      (by decide) (by decide)).2.2.2.trans (by norm_num [mean, powerValues, examplePower])⟩

end SpmvAccSim
